import Mathlib

/-!
Verification development for the CometBFT evidence pool
(package `evidence`, file modelled from the pool implementation).

The Go source is shallowly embedded: machine integers (int64) become `Int`,
`time.Time` and `time.Duration` become `Int` nanoseconds, byte slices become
`List Nat`, the sorted key/value database becomes an association list with a
sorted-iteration function, and Go panics / returned errors become `Option`.
The `uint32` evidence-size counter keeps Go's wrap-around arithmetic
(mod 2^32).
-/

namespace EvidencePool

/-- Byte strings (each entry is one byte value). -/
abbrev Bytes := List Nat

/-- ASCII code of the hex digit for d (0-15): digits then uppercase letters,
as produced by Go fmt's %X verb. -/
def hexDigitChar (d : Nat) : Nat := if d < 10 then 48 + d else 55 + d

/-- The k big-endian base-16 digits of n (most significant first), zero
padded; faithful to Go fmt %0.16X for every value below 16^k. -/
def padHexDigits : Nat → Nat → List Nat
  | 0, _ => []
  | k + 1, n => n / 16 ^ k :: padHexDigits k (n % 16 ^ k)

/-- The function bE from the source: big endian padded hex of an int64
height, fmt.Sprintf with %0.16X. Negative values print a minus sign (byte
45) followed by the digits of the magnitude. -/
def bE (h : Int) : Bytes :=
  if h < 0 then 45 :: (padHexDigits 16 (-h).toNat).map hexDigitChar
  else (padHexDigits 16 h.toNat).map hexDigitChar

/-- Go fmt %X of a byte slice: two uppercase hex digits per byte. -/
def hexOfByte (b : Nat) : Bytes := [hexDigitChar (b / 16), hexDigitChar (b % 16)]

/-- Hex encoding of a byte string, two digits per byte. -/
def hexOfBytes (bs : Bytes) : Bytes := (bs.map hexOfByte).flatten

/-- Strict lexicographic (shortlex on byte values, Go bytes.Compare) order
on byte strings, as a Boolean predicate. -/
def lexLtB : Bytes → Bytes → Bool
  | [], [] => false
  | [], _ :: _ => true
  | _ :: _, [] => false
  | a :: as, b :: bs => if a < b then true else if b < a then false else lexLtB as bs

/-- Lexicographic less-or-equal, defined as the negation of the reversed
strict order (the order is total). -/
def lexLeB (a b : Bytes) : Bool := !(lexLtB b a)

/-- Whether p is an initial segment of k (byte-string prefix test used by
the database's prefix iterator). -/
def bytesPfx : Bytes → Bytes → Bool
  | [], _ => true
  | _ :: _, [] => false
  | a :: as, b :: bs => a == b && bytesPfx as bs

/-- The version strings that can occur as the value of the on-disk
"version" record or as the caller's requested layout version. The source
switches on the strings "v1", "" and "v2" with a panicking default. -/
inductive VStr where
  | vempty
  | v1
  | v2
  | other
deriving DecidableEq

/-- The two key layout implementations, v1LegacyLayout and v2Layout. -/
inductive LayoutV where
  | v1
  | v2
deriving DecidableEq

/-- An evidence value as the pool sees it: the capability set Height, Time,
Hash, plus the dynamic type test for LightClientAttackEvidence, the proto
payload size used by listEvidence, and the outcome of the structural and
cryptographic checks done by verify (verify.go is outside the embedded
sources; its outcome is carried on the value). -/
structure Evidence where
  height : Int
  time : Int
  hash : Bytes
  isLight : Bool
  protoSize : Nat
  valid : Bool
deriving DecidableEq

/-- A pending database value after a successful proto Unmarshal: the size
the marshalled message reports, and the result of EvidenceFromProto (none
when the conversion fails). -/
structure PendBytes where
  protoSize : Nat
  fromProto : Option Evidence
deriving DecidableEq

/-- A raw database value, classified by how the pool's decoders react to
its bytes: a version record string, a pending evidence record (none when
proto Unmarshal fails), or a committed-height record. -/
inductive DBVal where
  | ver (t : VStr)
  | pend (pb : Option PendBytes)
  | committedAt (h : Int)
deriving DecidableEq

/-- The evidence database: an association list from byte keys to values. -/
abbrev Store := List (Bytes × DBVal)

/-- Point lookup (dbm.DB Get). -/
def storeGet : Store → Bytes → Option DBVal
  | [], _ => none
  | (k, v) :: rest, key => if k = key then some v else storeGet rest key

/-- Key membership (dbm.DB Has). -/
def storeHas (s : Store) (k : Bytes) : Bool := (storeGet s k).isSome

/-- Write (dbm.DB Set and SetSync; durability is not modelled). -/
def storeSet : Store → Bytes → DBVal → Store
  | [], k, v => [(k, v)]
  | (k0, v0) :: rest, k, v =>
    if k0 = k then (k, v) :: rest else (k0, v0) :: storeSet rest k v

/-- Delete (dbm.DB Delete); removes every entry at the key. -/
def storeDelete : Store → Bytes → Store
  | [], _ => []
  | (k0, v0) :: rest, k =>
    if k0 = k then storeDelete rest k else (k0, v0) :: storeDelete rest k

/-- Whether the database holds no entry at all (the isEmpty helper of the
source, which opens a full-range iterator and tests validity). -/
def storeIsEmpty (s : Store) : Bool := s.isEmpty

/-- Insert an entry into a key-sorted entry list, keeping the sort. -/
def insSorted (e : Bytes × DBVal) : List (Bytes × DBVal) → List (Bytes × DBVal)
  | [] => [e]
  | f :: rest => if lexLtB f.1 e.1 then f :: insSorted e rest else e :: f :: rest

/-- Sort an entry list by key (insertion sort by the byte order). -/
def sortByKey : List (Bytes × DBVal) → List (Bytes × DBVal)
  | [] => []
  | e :: rest => insSorted e (sortByKey rest)

/-- dbm.IteratePrefix: the entries whose key extends the given byte string,
yielded in ascending key order. -/
def iteratePfx (s : Store) (p : Bytes) : List (Bytes × DBVal) :=
  sortByKey (s.filter (fun e => bytesPfx p e.1))

/-- The fixed key of the on-disk layout-version record ("version" ASCII). -/
def versionKey : Bytes := [118, 101, 114, 115, 105, 111, 110]

/-- The single byte prefixing committed keys in the legacy layout. -/
def baseKeyCommitted : Nat := 0

/-- The single byte prefixing pending keys in the legacy layout. -/
def baseKeyPending : Nat := 1

/-- The keySuffix helper: fmt.Sprintf of bE(height), a slash, and the
uppercase hex of the evidence hash. -/
def keySuffix (ev : Evidence) : Bytes := bE ev.height ++ [47] ++ hexOfBytes ev.hash

/-- v1LegacyLayout.CalcKeyPending. -/
def v1KeyPending (ev : Evidence) : Bytes := baseKeyPending :: keySuffix ev

/-- v1LegacyLayout.CalcKeyCommitted. -/
def v1KeyCommitted (ev : Evidence) : Bytes := baseKeyCommitted :: keySuffix ev

/-- The integer prefix of committed keys in the v2 layout. -/
def prefixV2Committed : Nat := 9

/-- The integer prefix of pending keys in the v2 layout. -/
def prefixV2Pending : Nat := 10

/-- v2Layout key for an evidence under an integer prefix. The orderedcode
library is external to this repository; per the spec (4.A) any
order-preserving composite codec over (prefix, height, hash) is acceptable,
so the model reuses the padded-hex height encoding. -/
def v2Key (pfxByte : Nat) (ev : Evidence) : Bytes :=
  pfxByte :: (bE ev.height ++ hexOfBytes ev.hash)

/-- KeyLayout.CalcKeyPending, dispatched on the selected layout. -/
def calcKeyPending : LayoutV → Evidence → Bytes
  | .v1, ev => v1KeyPending ev
  | .v2, ev => v2Key prefixV2Pending ev

/-- KeyLayout.CalcKeyCommitted, dispatched on the selected layout. -/
def calcKeyCommitted : LayoutV → Evidence → Bytes
  | .v1, ev => v1KeyCommitted ev
  | .v2, ev => v2Key prefixV2Committed ev

/-- KeyLayout.PrefixToBytesPending, dispatched on the selected layout. -/
def pfxPending : LayoutV → Bytes
  | .v1 => [baseKeyPending]
  | .v2 => [prefixV2Pending]

/-- KeyLayout.PrefixToBytesCommitted, dispatched on the selected layout. -/
def pfxCommitted : LayoutV → Bytes
  | .v1 => [baseKeyCommitted]
  | .v2 => [prefixV2Committed]

/-- ConsensusParams.Evidence: the expiry window parameters. MaxAgeDuration
is a Duration in nanoseconds. -/
structure EvidenceParams where
  maxAgeNumBlocks : Int
  maxAgeDuration : Int
deriving DecidableEq

/-- The slice of sm.State the pool reads: LastBlockHeight, LastBlockTime
(nanoseconds), the evidence consensus parameters, and LastValidators
(opaque validator-set identifier). -/
structure SMState where
  lastBlockHeight : Int
  lastBlockTime : Int
  evParams : EvidenceParams
  lastValidators : Nat
deriving DecidableEq

/-- A conflicting vote as buffered by ReportConflictingVotes; only the
fields the pool and evidence construction inspect. -/
structure Vote where
  height : Int
  round : Int
  blockId : Nat
  validatorAddr : Nat
deriving DecidableEq

/-- One buffered conflicting-vote pair (duplicateVoteSet). -/
structure DuplicateVoteSet where
  voteA : Vote
  voteB : Vote
deriving DecidableEq

/-- The modulus of the uint32 evidence-size counter, 2^32. -/
def u32Mod : Nat := 4294967296

/-- One second in nanoseconds (time.Second). -/
def nsSecond : Int := 1000000000

/-- The evidence pool state. The state store's LoadValidators and the block
store's LoadBlockMeta collaborators are modelled as height-indexed lookup
tables (validator-set id, header time). -/
structure Pool where
  evidenceStore : Store
  evidenceList : List Evidence
  evidenceSize : Nat
  state : SMState
  consensusBuffer : List DuplicateVoteSet
  pruningHeight : Int
  pruningTime : Int
  dbKeyLayout : LayoutV
  stateDBVals : List (Int × Nat)
  blockMetas : List (Int × Int)
deriving DecidableEq

/-- Lookup in a height-indexed table (the Load functions of the state and
block store collaborators). -/
def lookupI {α : Type} : List (Int × α) → Int → Option α
  | [], _ => none
  | (h, a) :: rest, key => if h = key then some a else lookupI rest key

/-- Pool.isExpired: the age in blocks must exceed MaxAgeNumBlocks AND the
age in time must exceed MaxAgeDuration. -/
def Pool.isExpired (p : Pool) (height : Int) (time : Int) : Bool :=
  decide (p.state.lastBlockHeight - height > p.state.evParams.maxAgeNumBlocks) &&
    decide (p.state.lastBlockTime - time > p.state.evParams.maxAgeDuration)

/-- Pool.isCommitted: Has on the committed key. -/
def Pool.isCommitted (p : Pool) (ev : Evidence) : Bool :=
  storeHas p.evidenceStore (calcKeyCommitted p.dbKeyLayout ev)

/-- Pool.isPending: Has on the pending key. -/
def Pool.isPending (p : Pool) (ev : Evidence) : Bool :=
  storeHas p.evidenceStore (calcKeyPending p.dbKeyLayout ev)

/-- Modelled from the spec: Pool.verify lives in verify.go, which is not
among the embedded sources. Spec 4.D: structural and cryptographic
validation (carried as the valid flag on the evidence value) and the
expiry check against the current state; the state and block stores are
read but never written. -/
def Pool.verify (p : Pool) (ev : Evidence) : Bool :=
  ev.valid && !(p.isExpired ev.height ev.time)

/-- Pool.addPendingEvidence: marshal the evidence, Set it at the pending
key, and increment the uint32 size counter (proto marshalling of a value
constructed from in-memory evidence does not fail in the model). -/
def Pool.addPendingEvidence (p : Pool) (ev : Evidence) : Pool :=
  { p with
    evidenceStore :=
      storeSet p.evidenceStore (calcKeyPending p.dbKeyLayout ev)
        (DBVal.pend (some { protoSize := ev.protoSize, fromProto := some ev })),
    evidenceSize := (p.evidenceSize + 1) % u32Mod }

/-- Pool.removePendingEvidence: Delete the pending key and decrement the
uint32 size counter (with Go's wrap-around on underflow). -/
def Pool.removePendingEvidence (p : Pool) (ev : Evidence) : Pool :=
  { p with
    evidenceStore := storeDelete p.evidenceStore (calcKeyPending p.dbKeyLayout ev),
    evidenceSize := (p.evidenceSize + (u32Mod - 1)) % u32Mod }

/-- Membership of a hash in a collected hash set (the blockEvidenceMap of
the source, keyed by string(ev.Hash())). -/
def hashInList (h : Bytes) (hs : List Bytes) : Bool := hs.any (fun x => x == h)

/-- Pool.removeEvidenceFromList: drop from the in-memory list every element
whose hash is in the collected set. -/
def Pool.removeEvidenceFromList (p : Pool) (hs : List Bytes) : Pool :=
  { p with evidenceList := p.evidenceList.filter (fun ev => !(hashInList ev.hash hs)) }

/-- The error result of Pool.AddEvidence (types.NewErrInvalidEvidence). -/
inductive AddErr where
  | invalidEvidence
deriving DecidableEq

/-- Pool.AddEvidence: no-op when already pending or already committed,
otherwise verify, persist to the pending keyspace, and append to the
in-memory list. -/
def Pool.addEvidence (p : Pool) (ev : Evidence) : Pool × Option AddErr :=
  if p.isPending ev then (p, none)
  else if p.isCommitted ev then (p, none)
  else if !(p.verify ev) then (p, some AddErr.invalidEvidence)
  else
    let p1 := p.addPendingEvidence ev
    ({ p1 with evidenceList := p1.evidenceList ++ [ev] }, none)

/-- The error results of Pool.CheckEvidence: ErrEvidenceAlreadyCommitted,
ErrDuplicateEvidence (both wrapped in ErrInvalidEvidence), or a
verification failure. -/
inductive CheckErr where
  | alreadyCommitted
  | duplicateEvidence
  | invalidEvidence
deriving DecidableEq

/-- The loop body of Pool.CheckEvidence over the remaining list, carrying
the hashes of earlier elements. Light-client evidence and non-pending
evidence is (re)verified and persisted (a persistence failure is only
logged); then the element's hash is compared against all earlier hashes. -/
def Pool.checkEvidenceLoop : Pool → List Evidence → List Bytes → Pool × Option CheckErr
  | p, [], _ => (p, none)
  | p, ev :: rest, seen =>
    if ev.isLight || !(p.isPending ev) then
      if p.isCommitted ev then (p, some CheckErr.alreadyCommitted)
      else if !(p.verify ev) then (p, some CheckErr.invalidEvidence)
      else
        let p1 := p.addPendingEvidence ev
        if hashInList ev.hash seen then (p1, some CheckErr.duplicateEvidence)
        else Pool.checkEvidenceLoop p1 rest (seen ++ [ev.hash])
    else
      if hashInList ev.hash seen then (p, some CheckErr.duplicateEvidence)
      else Pool.checkEvidenceLoop p rest (seen ++ [ev.hash])

/-- Pool.CheckEvidence on an evidence list from a block. -/
def Pool.checkEvidence (p : Pool) (evList : List Evidence) : Pool × Option CheckErr :=
  Pool.checkEvidenceLoop p evList []

/-- bytesToEv: proto Unmarshal of a pending value followed by
EvidenceFromProto; none on either failure (a value that is not a pending
record at all also fails to convert). -/
def decodePendVal : DBVal → Option Evidence
  | DBVal.pend (some pb) => pb.fromProto
  | _ => none

/-- The pruning loop of Pool.removeExpiredPendingEvidence over the
snapshot of pending entries, carrying the hashes of the evidence removed
so far. Undecodable entries are logged and skipped. On the first
non-expired entry the loop stops, flushes the in-memory removals, and
returns the next pruning thresholds; when the scan exhausts the keyspace
it returns the state's last block height and time. -/
def Pool.pruneLoop : Pool → List (Bytes × DBVal) → List Bytes → Pool × Int × Int
  | p, [], hs =>
    (if hs.isEmpty then p else p.removeEvidenceFromList hs,
      p.state.lastBlockHeight, p.state.lastBlockTime)
  | p, (_, v) :: rest, hs =>
    match decodePendVal v with
    | none => Pool.pruneLoop p rest hs
    | some ev =>
      if !(p.isExpired ev.height ev.time) then
        (if hs.isEmpty then p else p.removeEvidenceFromList hs,
          ev.height + p.state.evParams.maxAgeNumBlocks + 1,
          ev.time + p.state.evParams.maxAgeDuration + nsSecond)
      else Pool.pruneLoop (p.removePendingEvidence ev) rest (hs ++ [ev.hash])

/-- Pool.removeExpiredPendingEvidence: prune the pending keyspace in key
order and report the next (height, time) pruning thresholds. -/
def Pool.removeExpiredPendingEvidence (p : Pool) : Pool × Int × Int :=
  Pool.pruneLoop p (iteratePfx p.evidenceStore (pfxPending p.dbKeyLayout)) []

/-- The byte length of the proto varint encoding of n. -/
def varintLen (n : Nat) : Nat :=
  if h : n < 128 then 1 else 1 + varintLen (n / 128)
decreasing_by exact Nat.div_lt_self (by omega) (by omega)

/-- The growth of cmtproto EvidenceList.Size() when a marshalled evidence
of the given payload size is appended: field tag, length varint, payload. -/
def evItemSize (payloadSize : Nat) : Nat := 1 + varintLen payloadSize + payloadSize

/-- The loop of Pool.listEvidence over the snapshot of entries under the
requested key prefix: Unmarshal (error aborts), extend the running
EvidenceList size, stop successfully BEFORE an element that would push the
size over maxBytes (unless maxBytes is -1), convert (error aborts), and
accumulate. -/
def listEvLoop : List (Bytes × DBVal) → Int → List Evidence → Nat → Option (List Evidence × Nat)
  | [], _, acc, total => some (acc, total)
  | (_, v) :: rest, maxBytes, acc, total =>
    match v with
    | DBVal.pend (some pb) =>
      let evSize := total + evItemSize pb.protoSize
      if maxBytes ≠ -1 ∧ (evSize : Int) > maxBytes then some (acc, total)
      else
        match pb.fromProto with
        | none => none
        | some ev => listEvLoop rest maxBytes (acc ++ [ev]) evSize
    | _ => none

/-- Pool.listEvidence: entries under the prefix in key order, within
maxBytes (no cap when maxBytes is -1); the store is never written. -/
def Pool.listEvidence (p : Pool) (pfx : Bytes) (maxBytes : Int) : Option (List Evidence × Nat) :=
  listEvLoop (iteratePfx p.evidenceStore pfx) maxBytes [] 0

/-- Pool.PendingEvidence: empty result when the size counter is zero or on
an internal error (which is only logged), otherwise listEvidence over the
pending prefix. -/
def Pool.pendingEvidence (p : Pool) (maxBytes : Int) : List Evidence × Int :=
  if p.evidenceSize = 0 then ([], 0)
  else
    match p.listEvidence (pfxPending p.dbKeyLayout) maxBytes with
    | none => ([], 0)
    | some (l, s) => (l, (s : Int))

/-- One step of Pool.markEvidenceAsCommitted: remove the pending record if
present (collecting the hash for the in-memory sweep), then write the
committed record carrying the evidence height. -/
def Pool.markOne (acc : Pool × List Bytes) (ev : Evidence) : Pool × List Bytes :=
  let p := acc.1
  let pair :=
    if p.isPending ev then (p.removePendingEvidence ev, acc.2 ++ [ev.hash])
    else (p, acc.2)
  let p1 := pair.1
  ({ p1 with
      evidenceStore :=
        storeSet p1.evidenceStore (calcKeyCommitted p1.dbKeyLayout ev)
          (DBVal.committedAt ev.height) },
    pair.2)

/-- Pool.markEvidenceAsCommitted over the block's evidence list, followed
by the in-memory sweep when anything was removed from pending. -/
def Pool.markEvidenceAsCommitted (p : Pool) (evList : List Evidence) : Pool :=
  let res := evList.foldl Pool.markOne (p, [])
  if res.2.isEmpty then res.1 else res.1.removeEvidenceFromList res.2

/-- Modelled from the spec: types.NewDuplicateVoteEvidence is not among the
embedded sources. It canonicalizes the two votes by block id, fails on a
structurally impossible pair, and stamps the evidence with the given block
time (spec 3, 4.E). The hash distinguishes the vote pair and timestamp. -/
def mkDuplicateVoteEvidence (vA vB : Vote) (t : Int) (valSetId : Nat) : Option Evidence :=
  if vA.height = vB.height ∧ vA.round = vB.round ∧
      vA.validatorAddr = vB.validatorAddr ∧ vA.blockId ≠ vB.blockId then
    let a := if vA.blockId ≤ vB.blockId then vA else vB
    let b := if vA.blockId ≤ vB.blockId then vB else vA
    some
      { height := a.height, time := t,
        hash := [a.blockId, b.blockId, a.validatorAddr, t.toNat, valSetId],
        isLight := false, protoSize := 64, valid := true }
  else none

/-- One iteration of the processConsensusBuffer loop: form the duplicate
vote evidence for one buffered pair (dropping it on a validator-set load
failure, a missing block meta, a height above the new state, or an
evidence-construction error), then skip it when already pending or
committed, else persist and enqueue it. -/
def Pool.processOnePair (st : SMState) (p : Pool) (vs : DuplicateVoteSet) : Pool :=
  let dve? : Option Evidence :=
    if vs.voteA.height = st.lastBlockHeight then
      mkDuplicateVoteEvidence vs.voteA vs.voteB st.lastBlockTime st.lastValidators
    else if vs.voteA.height < st.lastBlockHeight then
      match lookupI p.stateDBVals vs.voteA.height with
      | none => none
      | some valSet =>
        match lookupI p.blockMetas vs.voteA.height with
        | none => none
        | some metaTime => mkDuplicateVoteEvidence vs.voteA vs.voteB metaTime valSet
    else none
  match dve? with
  | none => p
  | some dve =>
    if p.isPending dve then p
    else if p.isCommitted dve then p
    else
      let p1 := p.addPendingEvidence dve
      { p1 with evidenceList := p1.evidenceList ++ [dve] }

/-- Pool.processConsensusBuffer: drain every buffered conflicting-vote
pair against the new state, then reset the buffer to empty. -/
def Pool.processConsensusBuffer (p : Pool) (st : SMState) : Pool :=
  let p1 := p.consensusBuffer.foldl (Pool.processOnePair st) p
  { p1 with consensusBuffer := [] }

/-- Pool.Update: panic (none) unless the new height is strictly greater
than the pool state's; then flush the consensus buffer, install the new
state, mark the block's evidence committed, and prune when the thresholds
have been passed. -/
def Pool.update (p : Pool) (newState : SMState) (evList : List Evidence) : Option Pool :=
  if newState.lastBlockHeight ≤ p.state.lastBlockHeight then none
  else
    let p1 := p.processConsensusBuffer newState
    let p2 := { p1 with state := newState }
    let p3 := p2.markEvidenceAsCommitted evList
    if p3.evidenceSize > 0 ∧ newState.lastBlockHeight > p3.pruningHeight ∧
        newState.lastBlockTime > p3.pruningTime then
      let res := p3.removeExpiredPendingEvidence
      some { res.1 with pruningHeight := res.2.1, pruningTime := res.2.2 }
    else some p3

/-- setDBLayout: on a non-empty store the on-disk version record, when
present and non-empty, overrides the requested version; the result is the
selected layout and the store after the version record is written back
with SetSync. An unknown version panics (none). -/
def setDBLayout (s : Store) (requested : VStr) : Option (LayoutV × Store) :=
  let req : VStr :=
    if !(storeIsEmpty s) then
      match storeGet s versionKey with
      | some (DBVal.ver t) => if t = VStr.vempty then requested else t
      | some _ => VStr.other
      | none => requested
    else requested
  match req with
  | VStr.v1 => some (LayoutV.v1, storeSet s versionKey (DBVal.ver VStr.v1))
  | VStr.vempty => some (LayoutV.v1, storeSet s versionKey (DBVal.ver VStr.v1))
  | VStr.v2 => some (LayoutV.v2, storeSet s versionKey (DBVal.ver VStr.v2))
  | VStr.other => none

/-- The pool value NewPool builds before pruning and reloading: empty
in-memory structures over the selected layout and the (version-stamped)
store. -/
def newPoolInit (store1 : Store) (layout : LayoutV) (st : SMState)
    (svals : List (Int × Nat)) (bmetas : List (Int × Int)) : Pool :=
  { evidenceStore := store1, evidenceList := [], evidenceSize := 0, state := st,
    consensusBuffer := [], pruningHeight := 0, pruningTime := 0,
    dbKeyLayout := layout, stateDBVals := svals, blockMetas := bmetas }

/-- NewPool: load the state (none on failure), select the key layout (the
caller's WithDBKeyLayout option, or v1 when unset), prune expired pending
evidence, then list the surviving pending evidence (an error aborts the
open), set the size counter and fill the in-memory list. -/
def newPool (evidenceDB : Store) (stateLoad : Option SMState) (layoutOpt : Option VStr)
    (stateDBVals : List (Int × Nat)) (blockMetas : List (Int × Int)) : Option Pool :=
  match stateLoad with
  | none => none
  | some st =>
    match setDBLayout evidenceDB (match layoutOpt with | some v => v | none => VStr.v1) with
    | none => none
    | some (layout, store1) =>
      let p1 : Pool := newPoolInit store1 layout st stateDBVals blockMetas
      let pruned := p1.removeExpiredPendingEvidence
      let p2 := { pruned.1 with pruningHeight := pruned.2.1, pruningTime := pruned.2.2 }
      match p2.listEvidence (pfxPending layout) (-1) with
      | none => none
      | some (evList, _) =>
        some { p2 with evidenceSize := evList.length % u32Mod, evidenceList := evList }

/-- The decoded evidence carried by an entry list, dropping undecodable
entries (used to phrase scan results). -/
def decodedEvs (entries : List (Bytes × DBVal)) : List Evidence :=
  entries.filterMap (fun kv => decodePendVal kv.2)

/-- Folding a key list over Delete (the disk effect of a pruning scan). -/
def deleteKeys (s : Store) (ks : List Bytes) : Store := ks.foldl storeDelete s

/-- Whether an entry decodes to an evidence whose pending key under the
layout reproduces the entry's key (the well-formedness every entry written
by addPendingEvidence enjoys). -/
def entryWF (layout : LayoutV) (kv : Bytes × DBVal) : Bool :=
  match decodePendVal kv.2 with
  | some ev => calcKeyPending layout ev == kv.1
  | none => false

/-- Like entryWF but tolerating undecodable entries: every entry that does
decode reproduces its key. -/
def entryWFdec (layout : LayoutV) (kv : Bytes × DBVal) : Bool :=
  match decodePendVal kv.2 with
  | some ev => calcKeyPending layout ev == kv.1
  | none => true

/-- The (payload size, evidence) pairs of the decodable entries of an
entry list, in order (used to phrase listEvidence results). -/
def pendPairs (entries : List (Bytes × DBVal)) : List (Nat × Evidence) :=
  entries.filterMap (fun kv =>
    match kv.2 with
    | DBVal.pend (some pb) =>
      match pb.fromProto with
      | some ev => some (pb.protoSize, ev)
      | none => none
    | _ => none)

/-- Specification-side accumulator for PendingEvidence, following the
spec's words: accumulate elements while the running serialized-size
estimate stays within maxBytes (no cap when maxBytes is -1), stopping
BEFORE the first element whose inclusion would exceed the budget. -/
def specAccum (maxBytes : Int) : List (Nat × Evidence) → Nat → List Evidence × Nat
  | [], total => ([], total)
  | (sz, e) :: rest, total =>
    if maxBytes ≠ -1 ∧ ((total + evItemSize sz : Nat) : Int) > maxBytes then ([], total)
    else
      let r := specAccum maxBytes rest (total + evItemSize sz)
      (e :: r.1, r.2)

/-- Whether a raw value aborts the listEvidence loop: not a decodable
pending record. -/
def badListVal : DBVal → Bool
  | DBVal.pend (some pb) => pb.fromProto.isNone
  | _ => true

/-- Sample consensus parameters for concrete witnesses. -/
def sampleParams : EvidenceParams :=
  { maxAgeNumBlocks := 100, maxAgeDuration := 100000000000 }

/-- Sample pool state for concrete witnesses. -/
def sampleState : SMState :=
  { lastBlockHeight := 10, lastBlockTime := 1000000000,
    evParams := sampleParams, lastValidators := 7 }

/-- Sample evidence for concrete witnesses. -/
def sampleEv : Evidence :=
  { height := 3, time := 500000000, hash := [7], isLight := false,
    protoSize := 5, valid := true }

/-- Sample empty pool for concrete witnesses. -/
def samplePool : Pool :=
  { evidenceStore := [], evidenceList := [], evidenceSize := 0, state := sampleState,
    consensusBuffer := [], pruningHeight := 0, pruningTime := 0,
    dbKeyLayout := LayoutV.v1, stateDBVals := [], blockMetas := [] }

/-- Sample pool that already holds sampleEv as pending. -/
def samplePendingPool : Pool :=
  { samplePool with
    evidenceStore :=
      [(v1KeyPending sampleEv,
        DBVal.pend (some { protoSize := sampleEv.protoSize, fromProto := some sampleEv }))],
    evidenceSize := 1, evidenceList := [sampleEv] }

theorem storeGet_set_self (s : Store) (k : Bytes) (v : DBVal) :
    storeGet (storeSet s k v) k = some v := by
  induction s with
  | nil => simp [storeSet, storeGet]
  | cons e rest ih =>
    obtain ⟨k0, v0⟩ := e
    by_cases hk : k0 = k
    · simp [storeSet, hk, storeGet]
    · simp [storeSet, hk, storeGet, ih]

theorem storeGet_delete_ne (s : Store) (kd k : Bytes) (h : kd ≠ k) :
    storeGet (storeDelete s kd) k = storeGet s k := by
  induction s with
  | nil => simp [storeDelete]
  | cons e rest ih =>
    obtain ⟨k0, v0⟩ := e
    by_cases hk : k0 = kd
    · subst hk
      simp [storeDelete, storeGet, h, ih]
    · by_cases hk2 : k0 = k
      · subst hk2
        simp [storeDelete, hk, storeGet]
      · simp [storeDelete, hk, storeGet, hk2, ih]

theorem storeSet_self (s : Store) (k : Bytes) (v : DBVal) (h : storeGet s k = some v) :
    storeSet s k v = s := by
  induction s with
  | nil => simp [storeGet] at h
  | cons e rest ih =>
    obtain ⟨k0, v0⟩ := e
    by_cases hk : k0 = k
    · subst hk
      simp [storeGet] at h
      simp [storeSet, h]
    · simp [storeGet, hk] at h
      simp [storeSet, hk, ih h]

theorem removePending_state (p : Pool) (ev : Evidence) :
    (p.removePendingEvidence ev).state = p.state := rfl

theorem removePending_layout (p : Pool) (ev : Evidence) :
    (p.removePendingEvidence ev).dbKeyLayout = p.dbKeyLayout := rfl

theorem removePending_evList (p : Pool) (ev : Evidence) :
    (p.removePendingEvidence ev).evidenceList = p.evidenceList := rfl

theorem removeFromList_store (p : Pool) (hs : List Bytes) :
    (p.removeEvidenceFromList hs).evidenceStore = p.evidenceStore := rfl

theorem isExpired_removePending (p : Pool) (ev : Evidence) (h t : Int) :
    (p.removePendingEvidence ev).isExpired h t = p.isExpired h t := rfl

/-- C1: isExpired(h, t) holds exactly when BOTH the block-height age
exceeds MaxAgeNumBlocks AND the time age exceeds MaxAgeDuration; when
either age is within its limit the evidence is not expired. -/
theorem isExpired_iff_both_ages_exceeded (p : Pool) (h t : Int) :
    p.isExpired h t = true ↔
      (p.state.lastBlockHeight - h > p.state.evParams.maxAgeNumBlocks ∧
        p.state.lastBlockTime - t > p.state.evParams.maxAgeDuration) := by
  simp [Pool.isExpired]

/-- C2: AddEvidence on evidence that is already pending or already
committed returns ok with the pool unchanged (nothing verified or
persisted), and a second AddEvidence of the same evidence right after a
first one leaves the size counter where the first call left it. -/
theorem addEvidence_noop_and_idempotent (p : Pool) (ev : Evidence) :
    ((p.isPending ev = true ∨ p.isCommitted ev = true) → p.addEvidence ev = (p, none)) ∧
      ((p.addEvidence ev).1.addEvidence ev).1.evidenceSize =
        (p.addEvidence ev).1.evidenceSize := by
  constructor
  · intro h
    unfold Pool.addEvidence
    rcases h with h | h
    · simp [h]
    · by_cases hp : p.isPending ev
      · simp [hp]
      · simp [hp, h]
  · by_cases hp : p.isPending ev
    · simp [Pool.addEvidence, hp]
    · by_cases hc : p.isCommitted ev
      · simp [Pool.addEvidence, hp, hc]
      · by_cases hv : p.verify ev
        · have hpend2 :
            ({ p.addPendingEvidence ev with
                evidenceList := (p.addPendingEvidence ev).evidenceList ++ [ev] } : Pool).isPending
              ev = true := by
            simp [Pool.isPending, Pool.addPendingEvidence, storeHas, storeGet_set_self]
          simp [Pool.addEvidence, hp, hc, hv, hpend2]
        · simp [Pool.addEvidence, hp, hc, hv]

/-- Witness for C2 at a concrete pool already holding the evidence as
pending: the call is a no-op and the size is stable across a repeat. -/
theorem addEvidence_noop_and_idempotent_witness :
    samplePendingPool.addEvidence sampleEv = (samplePendingPool, none) ∧
      ((samplePendingPool.addEvidence sampleEv).1.addEvidence sampleEv).1.evidenceSize =
        (samplePendingPool.addEvidence sampleEv).1.evidenceSize :=
  ⟨(addEvidence_noop_and_idempotent samplePendingPool sampleEv).1 (Or.inl (by decide)),
    (addEvidence_noop_and_idempotent samplePendingPool sampleEv).2⟩

/-- C3 counterexample: a non-empty store without a version record, opened
with requested version v2, selects v2 — not v1 as the claim states for the
absent-record non-empty case. -/
theorem setDBLayout_nonempty_absent_record_cex :
    storeIsEmpty [([5], DBVal.committedAt 3)] = false ∧
      storeGet [([5], DBVal.committedAt 3)] versionKey = none ∧
      (setDBLayout [([5], DBVal.committedAt 3)] VStr.v2).map Prod.fst = some LayoutV.v2 ∧
      LayoutV.v2 ≠ LayoutV.v1 := by decide

/-- C3 amended: the layout is taken from the on-disk version record when
present; when the record is absent — whether or not the store is empty —
the caller's requested version is used (empty request defaulting to v1);
the selected version is then written back (SetSync). -/
theorem setDBLayout_selection_spec (s : Store) (req : VStr) :
    (storeGet s versionKey = some (DBVal.ver VStr.v1) →
        setDBLayout s req = some (LayoutV.v1, storeSet s versionKey (DBVal.ver VStr.v1))) ∧
      (storeGet s versionKey = some (DBVal.ver VStr.v2) →
        setDBLayout s req = some (LayoutV.v2, storeSet s versionKey (DBVal.ver VStr.v2))) ∧
      (storeGet s versionKey = none →
        setDBLayout s req =
          (match req with
            | VStr.other => none
            | VStr.v2 => some (LayoutV.v2, storeSet s versionKey (DBVal.ver VStr.v2))
            | _ => some (LayoutV.v1, storeSet s versionKey (DBVal.ver VStr.v1)))) := by
  refine ⟨?_, ?_, ?_⟩
  · intro h
    have hne : storeIsEmpty s = false := by
      cases s with
      | nil => simp [storeGet] at h
      | cons e rest => simp [storeIsEmpty]
    simp [setDBLayout, hne, h]
  · intro h
    have hne : storeIsEmpty s = false := by
      cases s with
      | nil => simp [storeGet] at h
      | cons e rest => simp [storeIsEmpty]
    simp [setDBLayout, hne, h]
  · intro h
    by_cases he : storeIsEmpty s
    · cases req <;> simp [setDBLayout, he]
    · cases req <;> simp [setDBLayout, he, h]

/-- Witness for C3 amended: a present v2 record overrides a v1 request,
and on an empty store the requested v2 is chosen; in both cases the
selection is written back. -/
theorem setDBLayout_selection_spec_witness :
    setDBLayout [(versionKey, DBVal.ver VStr.v2)] VStr.v1 =
        some (LayoutV.v2,
          storeSet [(versionKey, DBVal.ver VStr.v2)] versionKey (DBVal.ver VStr.v2)) ∧
      setDBLayout [] VStr.v2 =
        some (LayoutV.v2, storeSet [] versionKey (DBVal.ver VStr.v2)) :=
  ⟨(setDBLayout_selection_spec [(versionKey, DBVal.ver VStr.v2)] VStr.v1).2.1 (by decide),
    (setDBLayout_selection_spec [] VStr.v2).2.2 (by decide)⟩

/-- C6: Update refuses (Go panic, modelled as none) exactly when the new
state's height is not strictly greater than the pool state's height; the
check is the first statement of Update, so no buffer flush, state change,
commit marking or pruning has happened when it fires. -/
theorem update_none_iff_height_regression (p : Pool) (st : SMState) (evl : List Evidence) :
    p.update st evl = none ↔ st.lastBlockHeight ≤ p.state.lastBlockHeight := by
  unfold Pool.update
  by_cases h : st.lastBlockHeight ≤ p.state.lastBlockHeight
  · simp [h]
  · simp only [if_neg h]
    constructor
    · intro hc
      split at hc <;> simp_all
    · intro hc
      exact absurd hc h

theorem cb_markOne (acc : Pool × List Bytes) (ev : Evidence) :
    (Pool.markOne acc ev).1.consensusBuffer = acc.1.consensusBuffer := by
  unfold Pool.markOne
  by_cases h : acc.1.isPending ev <;> simp [h] <;> rfl

theorem cb_foldl_markOne (evl : List Evidence) :
    ∀ (acc : Pool × List Bytes),
      (evl.foldl Pool.markOne acc).1.consensusBuffer = acc.1.consensusBuffer := by
  induction evl with
  | nil => intro acc; rfl
  | cons ev rest ih =>
    intro acc
    rw [List.foldl_cons, ih]
    exact cb_markOne acc ev

theorem cb_markCommitted (p : Pool) (evl : List Evidence) :
    (p.markEvidenceAsCommitted evl).consensusBuffer = p.consensusBuffer := by
  unfold Pool.markEvidenceAsCommitted
  by_cases h : (evl.foldl Pool.markOne (p, [])).2.isEmpty
  · simp only [h, if_pos]
    exact cb_foldl_markOne evl (p, [])
  · simp only [h, if_neg, Bool.false_eq_true, not_false_eq_true]
    have := cb_foldl_markOne evl (p, [])
    simpa [Pool.removeEvidenceFromList] using this

theorem cb_pruneLoop (entries : List (Bytes × DBVal)) :
    ∀ (p : Pool) (hs : List Bytes),
      (Pool.pruneLoop p entries hs).1.consensusBuffer = p.consensusBuffer := by
  induction entries with
  | nil =>
    intro p hs
    unfold Pool.pruneLoop
    by_cases h : hs.isEmpty <;> simp [h] <;> rfl
  | cons kv rest ih =>
    intro p hs
    obtain ⟨k, v⟩ := kv
    unfold Pool.pruneLoop
    cases hd : decodePendVal v with
    | none => exact ih p hs
    | some ev =>
      simp only
      by_cases he : p.isExpired ev.height ev.time
      · simp only [he, Bool.not_true, Bool.false_eq_true, if_neg, not_false_eq_true]
        exact ih (p.removePendingEvidence ev) (hs ++ [ev.hash])
      · simp only [he, Bool.not_false, if_pos]
        by_cases h2 : hs.isEmpty <;> simp [h2] <;> rfl

theorem pcb_of_empty (q : Pool) (h : q.consensusBuffer = []) (st : SMState) :
    q.processConsensusBuffer st = q := by
  unfold Pool.processConsensusBuffer
  rw [h]
  simp only [List.foldl_nil]
  cases q
  simp_all

/-- C10: after a successful Update the consensus buffer is empty — every
buffered vote pair was consumed by this call — and a later
processConsensusBuffer (hence a later Update) finds nothing to retry:
re-processing is the identity on the returned pool. -/
theorem update_empties_consensus_buffer (p : Pool) (st : SMState) (evl : List Evidence)
    (p' : Pool) (h : p.update st evl = some p') :
    p'.consensusBuffer = [] ∧ ∀ st2 : SMState, p'.processConsensusBuffer st2 = p' := by
  have hcb : p'.consensusBuffer = [] := by
    unfold Pool.update at h
    by_cases hgt : st.lastBlockHeight ≤ p.state.lastBlockHeight
    · simp [hgt] at h
    · simp only [if_neg hgt] at h
      split at h
      · cases h
        have h1 : ∀ (q : Pool) (a b : Int),
            ({ q with pruningHeight := a, pruningTime := b } : Pool).consensusBuffer =
              q.consensusBuffer := fun _ _ _ => rfl
        rw [h1]
        simp only [Pool.removeExpiredPendingEvidence]
        rw [cb_pruneLoop, cb_markCommitted]
        rfl
      · cases h
        rw [cb_markCommitted]
        rfl
  exact ⟨hcb, fun st2 => pcb_of_empty p' hcb st2⟩

/-- Witness for C10 at a concrete pool holding one buffered vote pair
whose evidence cannot be formed (no validator set on file): the pair is
dropped and the returned pool's buffer is empty. -/
theorem update_empties_consensus_buffer_witness :
    ({ samplePool with state := { sampleState with lastBlockHeight := 11 } } : Pool).consensusBuffer
        = [] ∧
      ∀ st2 : SMState,
        ({ samplePool with state := { sampleState with lastBlockHeight := 11 } } :
              Pool).processConsensusBuffer st2 =
          { samplePool with state := { sampleState with lastBlockHeight := 11 } } :=
  update_empties_consensus_buffer
    { samplePool with
      consensusBuffer :=
        [{ voteA := { height := 10, round := 0, blockId := 1, validatorAddr := 4 },
           voteB := { height := 10, round := 0, blockId := 2, validatorAddr := 4 } }] }
    { sampleState with lastBlockHeight := 11 } []
    { samplePool with state := { sampleState with lastBlockHeight := 11 } }
    (by decide)

/-- C8 counterexample: on the list consisting of the same valid,
not-yet-pending evidence twice, CheckEvidence does return DuplicateEvidence
— but a write to the evidence store HAS occurred: the first occurrence was
verified and persisted to the pending keyspace before the duplicate was
noticed, refuting the claim's no-writes conjunct. -/
theorem checkEvidence_duplicate_writes_cex :
    (samplePool.checkEvidence [sampleEv, sampleEv]).2 = some CheckErr.duplicateEvidence ∧
      storeHas (samplePool.checkEvidence [sampleEv, sampleEv]).1.evidenceStore
          (v1KeyPending sampleEv) = true ∧
      storeHas samplePool.evidenceStore (v1KeyPending sampleEv) = false ∧
      (samplePool.checkEvidence [sampleEv, sampleEv]).1.evidenceSize ≠
        samplePool.evidenceSize := by decide

/-- C8 amended: when the repeated evidence is already pending and is not
light-client evidence, CheckEvidence on [ev, ev] skips re-verification,
returns DuplicateEvidence, and performs no write at all (the pool is
returned unchanged); in general the duplicate is still reported, but
elements verified before it are persisted. -/
theorem checkEvidence_pending_duplicate_no_writes (p : Pool) (ev : Evidence)
    (hp : p.isPending ev = true) (hl : ev.isLight = false) :
    p.checkEvidence [ev, ev] = (p, some CheckErr.duplicateEvidence) := by
  simp [Pool.checkEvidence, Pool.checkEvidenceLoop, hp, hl, hashInList]

/-- Witness for C8 amended at a concrete pool holding the evidence as
pending. -/
theorem checkEvidence_pending_duplicate_no_writes_witness :
    samplePendingPool.checkEvidence [sampleEv, sampleEv] =
      (samplePendingPool, some CheckErr.duplicateEvidence) :=
  checkEvidence_pending_duplicate_no_writes samplePendingPool sampleEv (by decide) (by decide)

theorem hexDigitChar_lt {d1 d2 : Nat} (h : d1 < d2) (h16 : d2 < 16) :
    hexDigitChar d1 < hexDigitChar d2 := by
  unfold hexDigitChar
  split <;> split <;> omega

theorem lexLtB_cons_same (x : Nat) (a b : Bytes) :
    lexLtB (x :: a) (x :: b) = lexLtB a b := by
  simp [lexLtB]

theorem padHexDigits_length (k : Nat) : ∀ n : Nat, (padHexDigits k n).length = k := by
  induction k with
  | zero => intro n; rfl
  | succ k ih => intro n; simp [padHexDigits, ih]

theorem padHexChars_lt :
    ∀ (k n1 n2 : Nat), n1 < n2 → n2 < 16 ^ k →
      lexLtB ((padHexDigits k n1).map hexDigitChar) ((padHexDigits k n2).map hexDigitChar)
        = true := by
  intro k
  induction k with
  | zero =>
    intro n1 n2 h1 h2
    simp [pow_zero] at h2
    omega
  | succ k ih =>
    intro n1 n2 h1 h2
    have hp : 0 < 16 ^ k := pow_pos (by norm_num) k
    have hd2 : n2 / 16 ^ k < 16 := by
      apply Nat.div_lt_of_lt_mul
      calc n2 < 16 ^ (k + 1) := h2
        _ = 16 ^ k * 16 := by rw [pow_succ]
    have hdle : n1 / 16 ^ k ≤ n2 / 16 ^ k := Nat.div_le_div_right (Nat.le_of_lt h1)
    simp only [padHexDigits, List.map_cons]
    rcases Nat.lt_or_ge (n1 / 16 ^ k) (n2 / 16 ^ k) with hlt | hge
    · have hc := hexDigitChar_lt hlt hd2
      simp [lexLtB, hc]
    · have heq : n1 / 16 ^ k = n2 / 16 ^ k := Nat.le_antisymm hdle hge
      rw [heq, lexLtB_cons_same]
      have hmod : n1 % 16 ^ k < n2 % 16 ^ k := by
        have e1 := Nat.div_add_mod n1 (16 ^ k)
        have e2 := Nat.div_add_mod n2 (16 ^ k)
        rw [heq] at e1
        generalize hq : 16 ^ k * (n2 / 16 ^ k) = q at e1 e2
        omega
      exact ih _ _ hmod (Nat.mod_lt _ hp)

theorem lexLtB_append (l1 : Bytes) :
    ∀ (l2 s1 s2 : Bytes), l1.length = l2.length → lexLtB l1 l2 = true →
      lexLtB (l1 ++ s1) (l2 ++ s2) = true := by
  induction l1 with
  | nil =>
    intro l2 s1 s2 hlen h
    cases l2 with
    | nil => simp [lexLtB] at h
    | cons b bs => simp at hlen
  | cons a as ih =>
    intro l2 s1 s2 hlen h
    cases l2 with
    | nil => simp at hlen
    | cons b bs =>
      simp only [List.cons_append]
      rcases Nat.lt_trichotomy a b with hab | hab | hab
      · simp [lexLtB, hab]
      · subst hab
        rw [lexLtB_cons_same] at h ⊢
        exact ih bs s1 s2 (by simpa using hlen) h
      · have h1 : ¬ a < b := Nat.lt_asymm hab
        simp [lexLtB, h1, hab] at h

theorem bE_length_of_nonneg {h : Int} (h0 : 0 ≤ h) : (bE h).length = 16 := by
  unfold bE
  rw [if_neg (not_lt.mpr h0)]
  simp [padHexDigits_length]

theorem bE_lt {h1 h2 : Int} (h0 : 0 ≤ h1) (h12 : h1 < h2) (hb : h2 < 2 ^ 63) :
    lexLtB (bE h1) (bE h2) = true := by
  have hn1 : ¬ h1 < 0 := not_lt.mpr h0
  have hn2 : ¬ h2 < 0 := by omega
  unfold bE
  rw [if_neg hn1, if_neg hn2]
  apply padHexChars_lt
  · omega
  · have he : (16 : Nat) ^ 16 = 2 ^ 64 := by norm_num
    rw [he]
    omega

/-- C9 counterexample: at equal heights (0 ≤ 0) the v1 pending keys are
NOT ordered by the claimed ≤ — a larger hash at the same height gives a
lexicographically larger key. -/
theorem v1KeyPending_le_claim_cex :
    ((0 : Int) ≤ (0 : Int)) ∧
      lexLeB
          (v1KeyPending
            { height := 0, time := 0, hash := [1], isLight := false, protoSize := 0,
              valid := true })
          (v1KeyPending
            { height := 0, time := 0, hash := [0], isLight := false, protoSize := 0,
              valid := true }) = false := by decide

/-- C9 amended: for non-negative int64 heights the hex padding makes the
v1 pending key STRICTLY increasing in height whatever the hashes, and a
key that is lexicographically ≤ another can only carry a ≤ height — so
pending iteration in ascending key order yields non-decreasing Height();
at equal heights the hash part decides and either key order can occur. -/
theorem v1KeyPending_height_ordering (e1 e2 : Evidence)
    (hA : 0 ≤ e1.height) (hB : 0 ≤ e2.height)
    (bA : e1.height < 2 ^ 63) (bB : e2.height < 2 ^ 63) :
    (e1.height < e2.height → lexLtB (v1KeyPending e1) (v1KeyPending e2) = true) ∧
      (lexLeB (v1KeyPending e1) (v1KeyPending e2) = true → e1.height ≤ e2.height) := by
  have main : ∀ f1 f2 : Evidence, 0 ≤ f1.height → 0 ≤ f2.height → f2.height < 2 ^ 63 →
      f1.height < f2.height → lexLtB (v1KeyPending f1) (v1KeyPending f2) = true := by
    intro f1 f2 hh0 hh1 hhb hlt
    unfold v1KeyPending keySuffix
    rw [lexLtB_cons_same, List.append_assoc, List.append_assoc]
    exact lexLtB_append (bE f1.height) (bE f2.height) _ _
      (by rw [bE_length_of_nonneg hh0, bE_length_of_nonneg hh1])
      (bE_lt hh0 hlt hhb)
  constructor
  · intro hlt
    exact main e1 e2 hA hB bB hlt
  · intro hle
    by_contra hc
    have hlt : e2.height < e1.height := by omega
    have := main e2 e1 hB hA bA hlt
    unfold lexLeB at hle
    rw [this] at hle
    simp at hle

/-- Witness for C9 amended at concrete heights 1 < 2 with adversarial
hashes. -/
theorem v1KeyPending_height_ordering_witness :
    lexLtB
        (v1KeyPending
          { height := 1, time := 0, hash := [255], isLight := false, protoSize := 0,
            valid := true })
        (v1KeyPending
          { height := 2, time := 0, hash := [0], isLight := false, protoSize := 0,
            valid := true }) = true :=
  (v1KeyPending_height_ordering
      { height := 1, time := 0, hash := [255], isLight := false, protoSize := 0, valid := true }
      { height := 2, time := 0, hash := [0], isLight := false, protoSize := 0, valid := true }
      (by decide) (by decide) (by decide) (by decide)).1 (by decide)

theorem listEvLoop_eq_specAccum :
    ∀ (entries : List (Bytes × DBVal)) (mb : Int) (acc : List Evidence) (total : Nat),
      entries.all (fun kv => !(badListVal kv.2)) = true →
      listEvLoop entries mb acc total =
        some (acc ++ (specAccum mb (pendPairs entries) total).1,
          (specAccum mb (pendPairs entries) total).2) := by
  intro entries
  induction entries with
  | nil =>
    intro mb acc total _
    simp [listEvLoop, pendPairs, specAccum]
  | cons kv rest ih =>
    intro mb acc total hall
    obtain ⟨k, v⟩ := kv
    simp only [List.all_cons, Bool.and_eq_true, Bool.not_eq_true'] at hall
    obtain ⟨hgood, hrest⟩ := hall
    cases v with
    | ver t => simp [badListVal] at hgood
    | committedAt hh => simp [badListVal] at hgood
    | pend opb =>
      cases opb with
      | none => simp [badListVal] at hgood
      | some pb =>
        cases hpf : pb.fromProto with
        | none => simp [badListVal, hpf] at hgood
        | some ev =>
          simp only [listEvLoop, hpf, pendPairs, List.filterMap_cons]
          simp only [specAccum]
          split
          · simp
          · rw [show pendPairs rest =
                rest.filterMap (fun kv =>
                  match kv.2 with
                  | DBVal.pend (some pb) =>
                    match pb.fromProto with
                    | some ev => some (pb.protoSize, ev)
                    | none => none
                  | _ => none) from rfl] at *
            rw [ih mb (acc ++ [ev]) (total + evItemSize pb.protoSize)
              (by simpa [List.all_eq_true, Bool.not_eq_true'] using hrest)]
            simp

theorem specAccum_bounded (mb : Int) (hmb : 0 ≤ mb) :
    ∀ (pairs : List (Nat × Evidence)) (total : Nat), (total : Int) ≤ mb →
      ((specAccum mb pairs total).2 : Int) ≤ mb := by
  intro pairs
  induction pairs with
  | nil =>
    intro total h
    simpa [specAccum] using h
  | cons se rest ih =>
    intro total h
    obtain ⟨sz, e⟩ := se
    simp only [specAccum]
    split
    · simpa using h
    · next hcond =>
      have hne : mb ≠ -1 := by omega
      have hle : ((total + evItemSize sz : Nat) : Int) ≤ mb := by
        by_contra hgt
        exact hcond ⟨hne, by omega⟩
      exact ih _ hle

theorem specAccum_front_of (mb : Int) :
    ∀ (pairs : List (Nat × Evidence)) (total : Nat),
      ∃ l2, pairs.map Prod.snd = (specAccum mb pairs total).1 ++ l2 := by
  intro pairs
  induction pairs with
  | nil => intro total; exact ⟨[], rfl⟩
  | cons se rest ih =>
    intro total
    obtain ⟨sz, e⟩ := se
    simp only [specAccum, List.map_cons]
    split
    · exact ⟨e :: rest.map Prod.snd, rfl⟩
    · obtain ⟨l2, hl2⟩ := ih (total + evItemSize sz)
      exact ⟨l2, by simp [hl2]⟩

theorem specAccum_uncapped :
    ∀ (pairs : List (Nat × Evidence)) (total : Nat),
      (specAccum (-1) pairs total).1 = pairs.map Prod.snd := by
  intro pairs
  induction pairs with
  | nil => intro total; rfl
  | cons se rest ih =>
    intro total
    obtain ⟨sz, e⟩ := se
    simp [specAccum, ih]

/-- C5: PendingEvidence refines the spec-side accumulator (pending-order
traversal that stops BEFORE the first element whose inclusion would push
the running serialized size over maxBytes); for maxBytes ≥ 0 the returned
total stays ≤ maxBytes and the returned list is an initial segment of the
pending evidence in iteration order; for maxBytes = -1 everything pending
is returned. The embedded listEvidence performs no store writes, so the
call leaves the evidence store untouched. -/
theorem pendingEvidence_spec (p : Pool) (maxBytes : Int)
    (hwf : (iteratePfx p.evidenceStore (pfxPending p.dbKeyLayout)).all
        (fun kv => !(badListVal kv.2)) = true)
    (hsz : p.evidenceSize =
        (iteratePfx p.evidenceStore (pfxPending p.dbKeyLayout)).length) :
    p.pendingEvidence maxBytes =
        ((specAccum maxBytes
            (pendPairs (iteratePfx p.evidenceStore (pfxPending p.dbKeyLayout))) 0).1,
          ((specAccum maxBytes
            (pendPairs (iteratePfx p.evidenceStore (pfxPending p.dbKeyLayout))) 0).2 : Int)) ∧
      (0 ≤ maxBytes → (p.pendingEvidence maxBytes).2 ≤ maxBytes ∧
          ∃ l2, (pendPairs (iteratePfx p.evidenceStore (pfxPending p.dbKeyLayout))).map
              Prod.snd = (p.pendingEvidence maxBytes).1 ++ l2) ∧
      (maxBytes = -1 → (p.pendingEvidence maxBytes).1 =
          (pendPairs (iteratePfx p.evidenceStore (pfxPending p.dbKeyLayout))).map
            Prod.snd) := by
  have hmain : p.pendingEvidence maxBytes =
      ((specAccum maxBytes
          (pendPairs (iteratePfx p.evidenceStore (pfxPending p.dbKeyLayout))) 0).1,
        ((specAccum maxBytes
          (pendPairs (iteratePfx p.evidenceStore (pfxPending p.dbKeyLayout))) 0).2 : Int)) := by
    unfold Pool.pendingEvidence
    by_cases h0 : p.evidenceSize = 0
    · rw [if_pos h0]
      have hnil : iteratePfx p.evidenceStore (pfxPending p.dbKeyLayout) = [] := by
        rw [h0] at hsz
        exact List.length_eq_zero.mp hsz.symm
      rw [hnil]
      simp [pendPairs, specAccum]
    · rw [if_neg h0]
      unfold Pool.listEvidence
      rw [listEvLoop_eq_specAccum _ _ _ _ hwf]
      simp
  refine ⟨hmain, ?_, ?_⟩
  · intro hmb
    constructor
    · rw [hmain]
      exact specAccum_bounded maxBytes hmb _ 0 (by exact_mod_cast hmb)
    · obtain ⟨l2, hl2⟩ := specAccum_front_of maxBytes
        (pendPairs (iteratePfx p.evidenceStore (pfxPending p.dbKeyLayout))) 0
      exact ⟨l2, by rw [hmain]; exact hl2⟩
  · intro hm1
    rw [hmain, hm1]
    simp [specAccum_uncapped]

/-- Witness for C5 at a concrete single-entry pool and budget 100. -/
theorem pendingEvidence_spec_witness :
    samplePendingPool.pendingEvidence 100 =
      ((specAccum 100
          (pendPairs
            (iteratePfx samplePendingPool.evidenceStore
              (pfxPending samplePendingPool.dbKeyLayout))) 0).1,
        ((specAccum 100
          (pendPairs
            (iteratePfx samplePendingPool.evidenceStore
              (pfxPending samplePendingPool.dbKeyLayout))) 0).2 : Int)) :=
  (pendingEvidence_spec samplePendingPool 100 (by decide) (by decide)).1

theorem removePending_store (p : Pool) (ev : Evidence) :
    (p.removePendingEvidence ev).evidenceStore =
      storeDelete p.evidenceStore (calcKeyPending p.dbKeyLayout ev) := rfl

theorem deleteKeys_cons (s : Store) (k : Bytes) (ks : List Bytes) :
    deleteKeys s (k :: ks) = deleteKeys (storeDelete s k) ks := rfl

theorem pruneLoop_spec_go :
    ∀ (entries : List (Bytes × DBVal)) (p : Pool) (hs : List Bytes),
      entries.all (entryWF p.dbKeyLayout) = true →
      (Pool.pruneLoop p entries hs).1.evidenceStore =
          deleteKeys p.evidenceStore
            (((decodedEvs entries).takeWhile fun e => p.isExpired e.height e.time).map
              (calcKeyPending p.dbKeyLayout)) ∧
        (Pool.pruneLoop p entries hs).1.evidenceList =
          p.evidenceList.filter (fun e =>
            !(hashInList e.hash
              (hs ++
                ((decodedEvs entries).takeWhile fun e => p.isExpired e.height e.time).map
                  Evidence.hash))) ∧
        (Pool.pruneLoop p entries hs).2 =
          (match (decodedEvs entries).dropWhile (fun e => p.isExpired e.height e.time) with
            | [] => (p.state.lastBlockHeight, p.state.lastBlockTime)
            | e :: _ => (e.height + p.state.evParams.maxAgeNumBlocks + 1,
                e.time + p.state.evParams.maxAgeDuration + nsSecond)) := by
  intro entries
  induction entries with
  | nil =>
    intro p hs _
    refine ⟨?_, ?_, ?_⟩
    · unfold Pool.pruneLoop
      by_cases h : hs.isEmpty <;>
        simp [h, decodedEvs, deleteKeys, Pool.removeEvidenceFromList]
    · unfold Pool.pruneLoop
      by_cases h : hs.isEmpty
      · have hnil : hs = [] := by simpa using h
        subst hnil
        simp [decodedEvs, hashInList]
      · simp [h, decodedEvs, Pool.removeEvidenceFromList]
    · unfold Pool.pruneLoop
      by_cases h : hs.isEmpty <;> simp [h, decodedEvs]
  | cons kv rest ih =>
    intro p hs hall
    obtain ⟨k, v⟩ := kv
    simp only [List.all_cons, Bool.and_eq_true] at hall
    obtain ⟨hwf1, hrest⟩ := hall
    cases hd : decodePendVal v with
    | none => simp [entryWF, hd] at hwf1
    | some ev =>
      have hdec : decodedEvs ((k, v) :: rest) = ev :: decodedEvs rest := by
        simp [decodedEvs, List.filterMap_cons, hd]
      by_cases he : p.isExpired ev.height ev.time
      · have hloop : Pool.pruneLoop p ((k, v) :: rest) hs =
            Pool.pruneLoop (p.removePendingEvidence ev) rest (hs ++ [ev.hash]) := by
          simp [Pool.pruneLoop, hd, he]
        have hrest2 : rest.all (entryWF (p.removePendingEvidence ev).dbKeyLayout) = true := by
          rw [removePending_layout]
          exact hrest
        obtain ⟨ih1, ih2, ih3⟩ := ih (p.removePendingEvidence ev) (hs ++ [ev.hash]) hrest2
        refine ⟨?_, ?_, ?_⟩
        · rw [hloop, ih1, hdec]
          simp only [removePending_store, removePending_layout, isExpired_removePending]
          simp [List.takeWhile_cons, he, deleteKeys_cons]
        · rw [hloop, ih2, hdec]
          simp only [removePending_evList, removePending_layout, isExpired_removePending]
          simp [List.takeWhile_cons, he, List.append_assoc]
        · rw [hloop, ih3, hdec]
          simp only [removePending_state, isExpired_removePending]
          simp [List.dropWhile_cons, he]
      · have he2 : (p.isExpired ev.height ev.time) = false := by
          simpa using he
        have hloop : Pool.pruneLoop p ((k, v) :: rest) hs =
            (if hs.isEmpty then p else p.removeEvidenceFromList hs,
              ev.height + p.state.evParams.maxAgeNumBlocks + 1,
              ev.time + p.state.evParams.maxAgeDuration + nsSecond) := by
          simp [Pool.pruneLoop, hd, he2]
        refine ⟨?_, ?_, ?_⟩
        · rw [hloop, hdec]
          rw [List.takeWhile_cons_of_neg (by simp [he2])]
          by_cases h2 : hs.isEmpty <;>
            simp [h2, deleteKeys, Pool.removeEvidenceFromList]
        · rw [hloop, hdec]
          rw [List.takeWhile_cons_of_neg (by simp [he2])]
          by_cases h2 : hs.isEmpty
          · have hnil : hs = [] := by simpa using h2
            subst hnil
            simp [hashInList]
          · simp [h2, Pool.removeEvidenceFromList]
        · rw [hloop, hdec]
          rw [List.dropWhile_cons_of_neg (by simp [he2])]

/-- C4: the pruning scan walks the pending keyspace in key order: it
deletes from disk exactly the expired entries before the first surviving
entry, sweeps exactly their hashes out of the in-memory list, and returns
(ev.Height + MaxAgeNumBlocks + 1, ev.Time + MaxAgeDuration + 1s) for the
first non-expired entry ev, or (state.LastBlockHeight,
state.LastBlockTime) when the scan exhausts the keyspace. -/
theorem removeExpiredPendingEvidence_spec (p : Pool)
    (hwf : (iteratePfx p.evidenceStore (pfxPending p.dbKeyLayout)).all
        (entryWF p.dbKeyLayout) = true) :
    (p.removeExpiredPendingEvidence).1.evidenceStore =
        deleteKeys p.evidenceStore
          (((decodedEvs (iteratePfx p.evidenceStore (pfxPending p.dbKeyLayout))).takeWhile
              fun e => p.isExpired e.height e.time).map (calcKeyPending p.dbKeyLayout)) ∧
      (p.removeExpiredPendingEvidence).1.evidenceList =
        p.evidenceList.filter (fun e =>
          !(hashInList e.hash
            (((decodedEvs (iteratePfx p.evidenceStore (pfxPending p.dbKeyLayout))).takeWhile
                fun e => p.isExpired e.height e.time).map Evidence.hash))) ∧
      (p.removeExpiredPendingEvidence).2 =
        (match (decodedEvs (iteratePfx p.evidenceStore (pfxPending p.dbKeyLayout))).dropWhile
            (fun e => p.isExpired e.height e.time) with
          | [] => (p.state.lastBlockHeight, p.state.lastBlockTime)
          | e :: _ => (e.height + p.state.evParams.maxAgeNumBlocks + 1,
              e.time + p.state.evParams.maxAgeDuration + nsSecond)) := by
  have h := pruneLoop_spec_go (iteratePfx p.evidenceStore (pfxPending p.dbKeyLayout)) p [] hwf
  simpa [Pool.removeExpiredPendingEvidence] using h

/-- State whose last block is at height 200, time 200s, used by the
pruning witness. -/
def pruneState : SMState :=
  { lastBlockHeight := 200, lastBlockTime := 200000000000,
    evParams := sampleParams, lastValidators := 7 }

/-- An evidence from height 50 that is expired under pruneState. -/
def oldEv : Evidence :=
  { height := 50, time := 50000000000, hash := [3], isLight := false,
    protoSize := 6, valid := true }

/-- An evidence from height 150 that is not expired under pruneState. -/
def freshEv : Evidence :=
  { height := 150, time := 150000000000, hash := [4], isLight := false,
    protoSize := 6, valid := true }

/-- A pool holding one expired and one fresh pending evidence. -/
def prunePool : Pool :=
  { samplePool with
    state := pruneState,
    evidenceStore :=
      [(v1KeyPending oldEv,
        DBVal.pend (some { protoSize := oldEv.protoSize, fromProto := some oldEv })),
       (v1KeyPending freshEv,
        DBVal.pend (some { protoSize := freshEv.protoSize, fromProto := some freshEv }))],
    evidenceSize := 2, evidenceList := [oldEv, freshEv] }

/-- Witness for C4: on prunePool the scan stops at freshEv and returns the
thresholds computed from it. -/
theorem removeExpiredPendingEvidence_spec_witness :
    (prunePool.removeExpiredPendingEvidence).2 =
      (freshEv.height + prunePool.state.evParams.maxAgeNumBlocks + 1,
        freshEv.time + prunePool.state.evParams.maxAgeDuration + nsSecond) := by
  have h := (removeExpiredPendingEvidence_spec prunePool (by decide)).2.2
  rw [h]
  decide

theorem listEvLoop_none_of_bad :
    ∀ (entries : List (Bytes × DBVal)) (acc : List Evidence) (total : Nat),
      (∃ kv ∈ entries, badListVal kv.2 = true) →
      listEvLoop entries (-1) acc total = none := by
  intro entries
  induction entries with
  | nil =>
    intro acc total h
    obtain ⟨kv, hm, _⟩ := h
    simp at hm
  | cons kv rest ih =>
    intro acc total h
    obtain ⟨kv0, hm, hbad⟩ := h
    obtain ⟨k, v⟩ := kv
    cases v with
    | ver t => simp [listEvLoop]
    | committedAt hh => simp [listEvLoop]
    | pend opb =>
      cases opb with
      | none => simp [listEvLoop]
      | some pb =>
        cases hpf : pb.fromProto with
        | none => simp [listEvLoop, hpf]
        | some ev =>
          rcases List.mem_cons.mp hm with heq | hmem
          · rw [heq] at hbad
            simp [badListVal, hpf] at hbad
          · simp only [listEvLoop, hpf]
            have hfalse : ¬((-1 : Int) ≠ -1 ∧
                ((total + evItemSize pb.protoSize : Nat) : Int) > -1) := by
              intro hc
              exact hc.1 rfl
            rw [if_neg hfalse]
            exact ih _ _ ⟨kv0, hmem, hbad⟩

theorem mem_insSorted (e f : Bytes × DBVal) (l : List (Bytes × DBVal)) :
    e ∈ insSorted f l ↔ e = f ∨ e ∈ l := by
  induction l with
  | nil => simp [insSorted]
  | cons g rest ih =>
    unfold insSorted
    by_cases h : lexLtB g.1 f.1 <;> simp [h, ih] <;> tauto

theorem mem_sortByKey (e : Bytes × DBVal) (l : List (Bytes × DBVal)) :
    e ∈ sortByKey l ↔ e ∈ l := by
  induction l with
  | nil => simp [sortByKey]
  | cons f rest ih => simp [sortByKey, mem_insSorted, ih]

theorem storeGet_mem (s : Store) (k : Bytes) (v : DBVal) (h : storeGet s k = some v) :
    (k, v) ∈ s := by
  induction s with
  | nil => simp [storeGet] at h
  | cons e rest ih =>
    obtain ⟨k0, v0⟩ := e
    by_cases hk : k0 = k
    · subst hk
      simp [storeGet] at h
      simp [h]
    · simp [storeGet, hk] at h
      exact List.mem_cons_of_mem _ (ih h)

theorem mem_storeGet_of_nodup (s : Store) (k : Bytes) (v : DBVal)
    (hnd : (s.map Prod.fst).Nodup) (h : (k, v) ∈ s) :
    storeGet s k = some v := by
  induction s with
  | nil => simp at h
  | cons e rest ih =>
    obtain ⟨k0, v0⟩ := e
    simp only [List.map_cons, List.nodup_cons] at hnd
    obtain ⟨hk0, hnd2⟩ := hnd
    rcases List.mem_cons.mp h with heq | hmem
    · have h1 : k0 = k := (Prod.ext_iff.mp heq.symm).1
      have h2 : v0 = v := (Prod.ext_iff.mp heq.symm).2
      subst h1
      subst h2
      simp [storeGet]
    · have hne : k0 ≠ k := by
        intro hkk
        subst hkk
        exact hk0 (List.mem_map.mpr ⟨(k0, v), hmem, rfl⟩)
      simp [storeGet, hne, ih hnd2 hmem]

theorem pruneLoop_get_untouched :
    ∀ (entries : List (Bytes × DBVal)) (p : Pool) (hs : List Bytes) (k : Bytes),
      (∀ kv ∈ entries, ∀ ev : Evidence, decodePendVal kv.2 = some ev →
          calcKeyPending p.dbKeyLayout ev ≠ k) →
      storeGet (Pool.pruneLoop p entries hs).1.evidenceStore k = storeGet p.evidenceStore k := by
  intro entries
  induction entries with
  | nil =>
    intro p hs k _
    unfold Pool.pruneLoop
    by_cases h : hs.isEmpty <;> simp [h, Pool.removeEvidenceFromList]
  | cons kv rest ih =>
    intro p hs k hne
    obtain ⟨kk, v⟩ := kv
    cases hd : decodePendVal v with
    | none =>
      have hstep : Pool.pruneLoop p ((kk, v) :: rest) hs = Pool.pruneLoop p rest hs := by
        simp [Pool.pruneLoop, hd]
      rw [hstep]
      exact ih p hs k (fun kv2 hm => hne kv2 (List.mem_cons_of_mem _ hm))
    | some ev =>
      by_cases he : p.isExpired ev.height ev.time
      · have hstep : Pool.pruneLoop p ((kk, v) :: rest) hs =
            Pool.pruneLoop (p.removePendingEvidence ev) rest (hs ++ [ev.hash]) := by
          simp [Pool.pruneLoop, hd, he]
        rw [hstep]
        rw [ih (p.removePendingEvidence ev) (hs ++ [ev.hash]) k (fun kv2 hm ev2 hd2 => by
          rw [removePending_layout]
          exact hne kv2 (List.mem_cons_of_mem _ hm) ev2 hd2)]
        rw [removePending_store]
        exact storeGet_delete_ne _ _ _ (hne (kk, v) (List.mem_cons_self _ _) ev hd)
      · have he2 : p.isExpired ev.height ev.time = false := by simpa using he
        by_cases h2 : hs.isEmpty <;>
          simp [Pool.pruneLoop, hd, he2, h2, Pool.removeEvidenceFromList]

/-- C7 counterexample: a store holding one pending entry whose bytes do
not deserialize makes NewPool FAIL (the listEvidence error is propagated),
refuting the claim that open still succeeds with the entry skipped. -/
theorem newPool_undecodable_open_fails_cex :
    storeGet [([1, 99], DBVal.pend none)] [1, 99] = some (DBVal.pend none) ∧
      newPool [([1, 99], DBVal.pend none)] (some sampleState) none [] [] = none := by decide

/-- C7 amended: during open, the pruning scan does log-and-skip an
undecodable pending entry and leaves it on disk untouched, but the
subsequent listEvidence aborts with the deserialization error and NewPool
propagates it, so open fails instead of returning a pool with the
remaining entries. -/
theorem newPool_undecodable_entry_behavior (s : Store) (st : SMState) (k : Bytes)
    (hver : storeGet s versionKey = some (DBVal.ver VStr.v1))
    (hk : storeGet s k = some (DBVal.pend none))
    (hpfx : bytesPfx (pfxPending LayoutV.v1) k = true)
    (hnd : (s.map Prod.fst).Nodup)
    (hwfdec : s.all (entryWFdec LayoutV.v1) = true) :
    newPool s (some st) none [] [] = none ∧
      storeGet ((newPoolInit s LayoutV.v1 st [] []).removeExpiredPendingEvidence).1.evidenceStore
          k = some (DBVal.pend none) := by
  have hne : storeIsEmpty s = false := by
    cases s with
    | nil => simp [storeGet] at hver
    | cons e r => simp [storeIsEmpty]
  have hsel : setDBLayout s VStr.v1 = some (LayoutV.v1, s) := by
    simp [setDBLayout, hne, hver, storeSet_self s versionKey _ hver]
  have huntouched : ∀ kv ∈ iteratePfx s (pfxPending LayoutV.v1), ∀ ev : Evidence,
      decodePendVal kv.2 = some ev → calcKeyPending LayoutV.v1 ev ≠ k := by
    intro kv hm ev hd hkeq
    obtain ⟨kk, vv⟩ := kv
    have hmem : (kk, vv) ∈ s :=
      List.mem_of_mem_filter ((mem_sortByKey _ _).mp hm)
    have hwf := (List.all_eq_true.mp hwfdec) (kk, vv) hmem
    have hkey : calcKeyPending LayoutV.v1 ev = kk := by
      simpa [entryWFdec, hd] using hwf
    have hkk : kk = k := hkey ▸ hkeq
    subst hkk
    have hget : storeGet s kk = some vv := mem_storeGet_of_nodup s kk vv hnd hmem
    rw [hget] at hk
    cases hk
    simp [decodePendVal] at hd
  have hget2 : storeGet
      ((newPoolInit s LayoutV.v1 st [] []).removeExpiredPendingEvidence).1.evidenceStore k =
      some (DBVal.pend none) := by
    unfold Pool.removeExpiredPendingEvidence
    rw [pruneLoop_get_untouched _ _ _ _ huntouched]
    exact hk
  refine ⟨?_, hget2⟩
  have hmem2 : (k, DBVal.pend none) ∈
      iteratePfx
        ((newPoolInit s LayoutV.v1 st [] []).removeExpiredPendingEvidence).1.evidenceStore
        (pfxPending LayoutV.v1) := by
    rw [iteratePfx, mem_sortByKey]
    exact List.mem_filter.mpr ⟨storeGet_mem _ _ _ hget2, hpfx⟩
  have hlist : listEvLoop
      (iteratePfx
        ((newPoolInit s LayoutV.v1 st [] []).removeExpiredPendingEvidence).1.evidenceStore
        (pfxPending LayoutV.v1)) (-1) [] 0 = none :=
    listEvLoop_none_of_bad _ _ _ ⟨(k, DBVal.pend none), hmem2, rfl⟩
  simp only [newPool, hsel]
  simp only [Pool.listEvidence]
  rw [show (({ ((newPoolInit s LayoutV.v1 st [] []).removeExpiredPendingEvidence).1 with
      pruningHeight := ((newPoolInit s LayoutV.v1 st [] []).removeExpiredPendingEvidence).2.1,
      pruningTime := ((newPoolInit s LayoutV.v1 st [] []).removeExpiredPendingEvidence).2.2 } :
        Pool)).evidenceStore =
      ((newPoolInit s LayoutV.v1 st [] []).removeExpiredPendingEvidence).1.evidenceStore from rfl]
  rw [hlist]

/-- Witness for C7 amended at a concrete store: one good version record
and one undecodable pending entry. -/
theorem newPool_undecodable_entry_behavior_witness :
    newPool [(versionKey, DBVal.ver VStr.v1), ([1, 99], DBVal.pend none)] (some sampleState)
          none [] [] = none ∧
      storeGet
          ((newPoolInit [(versionKey, DBVal.ver VStr.v1), ([1, 99], DBVal.pend none)]
                LayoutV.v1 sampleState [] []).removeExpiredPendingEvidence).1.evidenceStore
          [1, 99] = some (DBVal.pend none) :=
  newPool_undecodable_entry_behavior
    [(versionKey, DBVal.ver VStr.v1), ([1, 99], DBVal.pend none)] sampleState [1, 99]
    (by decide) (by decide) (by decide) (by decide) (by decide)

end EvidencePool
